import Mathlib

/-!
# Verification of the json-stream-es streaming JSON pipeline

This file gives a shallow embedding, in Lean 4, of the chunk-to-value
materializer (`JsonDeserializer`, from `src/json-deserializer.ts`) of the
json-stream-es streaming JSON library, together with spec-modelled versions of
the upstream pipeline stages (tokenizer, path tracker, path selector, stream
splitter) whose sources are not part of the provided tree, and proves the
frozen claims about them.

Conventions of the embedding:
* TypeScript `undefined` sentinels become `Option`.
* The mutable state object of the deserializer becomes a pure inductive
  `DeserializerState`; the aliasing between a parent state's `value` field and
  the child state's `object`/`array` accumulator (the parent's value is the
  very object the child fills in place) is rendered by writing the finished
  container back into the parent's `value` field at the pop.
* JSON numbers are carried opaquely as their literal text: no claim depends on
  floating-point arithmetic, only on the number being passed through.
* `controller.enqueue` becomes an output list accumulated by the transform.
-/

namespace JsonStreamEs

/-- A path segment: an object key or an array index. -/
inductive Seg where
  | key (s : String)
  | idx (n : Nat)
deriving DecidableEq

/-- `JsonPath`: an ordered root-to-leaf list of segments. -/
def JsonPath := List Seg
deriving DecidableEq

/-- Whether a string token is an object key or a value (`StringRole`). -/
inductive StringRole where
  | key
  | value
deriving DecidableEq

/-- `JsonChunk`: the discriminated token vocabulary of the tokenizer. -/
inductive JsonChunk where
  | objectStart
  | objectEnd
  | arrayStart
  | arrayEnd
  | stringStart (role : StringRole)
  | stringChunk (role : StringRole) (value : String)
  | stringEnd (role : StringRole)
  | numberValue (value : String)
  | booleanValue (value : Bool)
  | nullValue
deriving DecidableEq

/-- A chunk together with its `path` annotation (`JsonChunkWithPath`). -/
structure JsonChunkWithPath where
  chunk : JsonChunk
  path : JsonPath
deriving DecidableEq

/-- `JsonValue`: string, number (kept as its literal text), boolean, null,
ordered string-keyed mapping, or ordered sequence. -/
inductive JsonValue where
  | str (s : String)
  | num (lit : String)
  | bool (b : Bool)
  | null
  | obj (kvs : List (String × JsonValue))
  | arr (items : List JsonValue)

mutual

/-- Structural boolean equality of values (the nested positions rule out the
derived instance, so it is spelt out as a mutual recursion). -/
def beqVal : JsonValue → JsonValue → Bool
  | .str a, .str b => a == b
  | .num a, .num b => a == b
  | .bool a, .bool b => a == b
  | .null, .null => true
  | .obj a, .obj b => beqFields a b
  | .arr a, .arr b => beqItems a b
  | _, _ => false

/-- Positionwise boolean equality of item lists. -/
def beqItems : List JsonValue → List JsonValue → Bool
  | [], [] => true
  | x :: xs, y :: ys => beqVal x y && beqItems xs ys
  | _, _ => false

/-- Positionwise boolean equality of field lists (keys, values and order). -/
def beqFields : List (String × JsonValue) → List (String × JsonValue) → Bool
  | [], [] => true
  | (k1, v1) :: xs, (k2, v2) :: ys => k1 == k2 && beqVal v1 v2 && beqFields xs ys
  | _, _ => false

end

mutual

theorem beqVal_iff : ∀ a b : JsonValue, beqVal a b = true ↔ a = b
  | .str _, .str _ => by simp [beqVal]
  | .num _, .num _ => by simp [beqVal]
  | .bool _, .bool _ => by simp [beqVal]
  | .null, .null => by simp [beqVal]
  | .obj a, .obj b => by simp [beqVal, beqFields_iff a b]
  | .arr a, .arr b => by simp [beqVal, beqItems_iff a b]
  | .str _, .num _ | .str _, .bool _ | .str _, .null | .str _, .obj _ | .str _, .arr _
  | .num _, .str _ | .num _, .bool _ | .num _, .null | .num _, .obj _ | .num _, .arr _
  | .bool _, .str _ | .bool _, .num _ | .bool _, .null | .bool _, .obj _ | .bool _, .arr _
  | .null, .str _ | .null, .num _ | .null, .bool _ | .null, .obj _ | .null, .arr _
  | .obj _, .str _ | .obj _, .num _ | .obj _, .bool _ | .obj _, .null | .obj _, .arr _
  | .arr _, .str _ | .arr _, .num _ | .arr _, .bool _ | .arr _, .null | .arr _, .obj _ =>
    by simp [beqVal]

theorem beqItems_iff : ∀ xs ys : List JsonValue, beqItems xs ys = true ↔ xs = ys
  | [], [] => by simp [beqItems]
  | x :: xs, y :: ys => by simp [beqItems, beqVal_iff x y, beqItems_iff xs ys]
  | [], _ :: _ => by simp [beqItems]
  | _ :: _, [] => by simp [beqItems]

theorem beqFields_iff : ∀ xs ys : List (String × JsonValue), beqFields xs ys = true ↔ xs = ys
  | [], [] => by simp [beqFields]
  | (k1, v1) :: xs, (k2, v2) :: ys => by
    simp [beqFields, beqVal_iff v1 v2, beqFields_iff xs ys, and_assoc]
  | [], _ :: _ => by simp [beqFields]
  | _ :: _, [] => by simp [beqFields]

end

instance : DecidableEq JsonValue := fun a b => decidable_of_iff _ (beqVal_iff a b)

/-- The output unit of the materializer (`JsonValueAndPath`). -/
structure JsonValueAndPath where
  value : JsonValue
  path : JsonPath
deriving DecidableEq

/-- The materializer's state (`AnyState` in `json-deserializer.ts`): `ROOT`,
`OBJECT_PROPERTY` or `ARRAY_ITEM`, each with the fields of the source and the
`parent` back-reference for the two non-root states. -/
inductive DeserializerState where
  | root (value : Option JsonValue) (path : JsonPath)
  | objectProperty (object : List (String × JsonValue)) (key : String)
      (value : Option JsonValue) (parent : DeserializerState)
  | arrayItem (array : List JsonValue) (value : Option JsonValue)
      (parent : DeserializerState)
deriving DecidableEq

namespace DeserializerState

/-- Read the `value` field of the current state. -/
def getValue : DeserializerState → Option JsonValue
  | .root v _ => v
  | .objectProperty _ _ v _ => v
  | .arrayItem _ v _ => v

/-- Write the `value` field of the current state (`this.state.value = ...`). -/
def setValue : DeserializerState → Option JsonValue → DeserializerState
  | .root _ p, v => .root v p
  | .objectProperty o k _ par, v => .objectProperty o k v par
  | .arrayItem a _ par, v => .arrayItem a v par

/-- `this.state.value = chunk.value; if (this.state.type === ROOT)
this.state.path = chunk.path` — the combined assignment performed by every
value-opening branch of `transform`. -/
def setValueAndRootPath : DeserializerState → JsonValue → JsonPath → DeserializerState
  | .root _ _, v, p => .root (some v) p
  | .objectProperty o k _ par, v, _ => .objectProperty o k (some v) par
  | .arrayItem a _ par, v, _ => .arrayItem a (some v) par

/-- Whether the state is an `OBJECT_PROPERTY` state. -/
def isObjectProperty : DeserializerState → Bool
  | .objectProperty _ _ _ _ => true
  | _ => false

/-- Whether the state is an `ARRAY_ITEM` state. -/
def isArrayItem : DeserializerState → Bool
  | .arrayItem _ _ _ => true
  | _ => false

end DeserializerState

/-- Whether a record has a binding for key `k` (defined early for
`recordSet`). -/
def hasKey : List (String × JsonValue) → String → Bool
  | [], _ => false
  | (k0, _) :: rest, k => k0 == k || hasKey rest k

/-- The numeric value of a digit string. -/
def keyToNat (k : String) : Nat :=
  k.data.foldl (fun acc c => acc * 10 + (c.toNat - 48)) 0

/-- Whether `k` is an ECMAScript array-index key: the canonical decimal
representation (no leading zeros) of an integer below `2^32 - 1`. Plain JS
objects enumerate these keys first, in ascending numeric order. -/
def isIntKey (k : String) : Bool :=
  match k.data with
  | [] => false
  | [c] => c.isDigit
  | c :: rest =>
    c.isDigit && c != '0' && rest.all Char.isDigit &&
      decide (keyToNat k < 4294967295)

/-- Overwrite the value at the first occurrence of `k`, keeping its
position (the existing-property branch of JS assignment). -/
def setExisting : List (String × JsonValue) → String → JsonValue → List (String × JsonValue)
  | [], _, _ => []
  | (k0, v0) :: rest, k, v =>
    if k0 = k then (k0, v) :: rest else (k0, v0) :: setExisting rest k v

/-- Insert a fresh array-index key into the record's leading integer-key
segment, at its ascending numeric position. -/
def insertIntKey : List (String × JsonValue) → String → JsonValue → List (String × JsonValue)
  | [], k, v => [(k, v)]
  | (k0, v0) :: rest, k, v =>
    if isIntKey k0 && decide (keyToNat k0 < keyToNat k) then
      (k0, v0) :: insertIntKey rest k v
    else (k, v) :: (k0, v0) :: rest

/-- JavaScript property assignment `object[key] = value` on a plain object
(`Record<string, JsonValue>`), with the record kept in the object's
own-property enumeration order (ECMAScript `[[OwnPropertyKeys]]`): an
existing key keeps its position and gets the new value; a fresh array-index
key is inserted into the ascending integer-key prefix; any other fresh key is
appended after all existing keys. -/
def recordSet (o : List (String × JsonValue)) (k : String) (v : JsonValue) :
    List (String × JsonValue) :=
  if hasKey o k then setExisting o k v
  else if isIntKey k then insertIntKey o k v
  else o ++ [(k, v)]

/-- `handleValueEnd` from `json-deserializer.ts`: in `ROOT` enqueue the value
(if any) and reset it; in `OBJECT_PROPERTY` store the value under the
accumulated key (if any) and reset key and value; in `ARRAY_ITEM` push the
value (if any) and reset it. The second component is the list of enqueued
outputs. -/
def handleValueEnd : DeserializerState → DeserializerState × List JsonValueAndPath
  | .root v p =>
    (.root none p, match v with | some x => [⟨x, p⟩] | none => [])
  | .objectProperty o k v par =>
    (.objectProperty (match v with | some x => recordSet o k x | none => o) "" none par, [])
  | .arrayItem a v par =>
    (.arrayItem (match v with | some x => a ++ [x] | none => a) none par, [])

/-- JavaScript string coercion of a `JsonValue` (or `undefined`), modelling
the `+=` on the line `this.state.value += chunk.value`: only the string case
is reachable when a `StringChunk` follows a `StringStart` as the chunk
grammar guarantees; the other cases render JS `String(x)` shallowly. -/
def jsToString : Option JsonValue → String
  | some (.str s) => s
  | some (.num lit) => lit
  | some (.bool b) => if b then "true" else "false"
  | some .null => "null"
  | some (.obj _) => "[object Object]"
  | some (.arr _) => ""
  | none => "undefined"

/-- `transform` from `json-deserializer.ts`, branch for branch. Returns the
next state and the outputs enqueued while processing this chunk. Chunks that
match no branch of the source's `if`/`else if` chain (for example an
`ObjectEnd` outside an object, or key tokens outside an object) leave the
state unchanged and enqueue nothing. -/
def transform (state : DeserializerState) (c : JsonChunkWithPath) :
    DeserializerState × List JsonValueAndPath :=
  match c.chunk with
  | .numberValue v => handleValueEnd (state.setValueAndRootPath (.num v) c.path)
  | .booleanValue b => handleValueEnd (state.setValueAndRootPath (.bool b) c.path)
  | .nullValue => handleValueEnd (state.setValueAndRootPath .null c.path)
  | .stringStart .value => (state.setValueAndRootPath (.str "") c.path, [])
  | .stringChunk .value t =>
    (state.setValue (some (.str (jsToString state.getValue ++ t))), [])
  | .stringEnd .value => handleValueEnd state
  | .arrayStart =>
    (.arrayItem [] none (state.setValueAndRootPath (.arr []) c.path), [])
  | .arrayEnd =>
    match state with
    | .arrayItem arr _ par => handleValueEnd (par.setValue (some (.arr arr)))
    | _ => (state, [])
  | .objectStart =>
    (.objectProperty [] "" none (state.setValueAndRootPath (.obj []) c.path), [])
  | .objectEnd =>
    match state with
    | .objectProperty o _ _ par => handleValueEnd (par.setValue (some (.obj o)))
    | _ => (state, [])
  | .stringChunk .key t =>
    match state with
    | .objectProperty o k v par => (.objectProperty o (k ++ t) v par, [])
    | _ => (state, [])
  | _ => (state, [])

/-- Run the transform over a chunk list, threading the state and
concatenating the enqueued outputs in order. -/
def processChunks (s : DeserializerState) :
    List JsonChunkWithPath → DeserializerState × List JsonValueAndPath
  | [] => (s, [])
  | c :: rest =>
    let sc := transform s c
    let rec1 := processChunks sc.1 rest
    (rec1.1, sc.2 ++ rec1.2)

/-- The initial state of a fresh `JsonDeserializer`. -/
def initialState : DeserializerState := .root none []

/-- Materialize a whole chunk sequence: the list of emitted
value-with-path results, in emission order. -/
def deserialize (cs : List JsonChunkWithPath) : List JsonValueAndPath :=
  (processChunks initialState cs).2

/-- Which chunks complete a root-level value in a given state: a primitive at
root, a `StringEnd` (value role) at root with a string in progress, or the
closing boundary of a container whose parent state is the root. -/
def completesRootValue (s : DeserializerState) (c : JsonChunk) : Bool :=
  match s, c with
  | .root _ _, .numberValue _ => true
  | .root _ _, .booleanValue _ => true
  | .root _ _, .nullValue => true
  | .root (some _) _, .stringEnd .value => true
  | .arrayItem _ _ (.root _ _), .arrayEnd => true
  | .objectProperty _ _ _ (.root _ _), .objectEnd => true
  | _, _ => false

/-- Whether a string list contains `k`. -/
def memStr : List String → String → Bool
  | [], _ => false
  | x :: rest, k => x == k || memStr rest k

/-- Whether the keys of a record are pairwise distinct. -/
def nodupKeys : List (String × JsonValue) → Bool
  | [] => true
  | (k, _) :: rest => !hasKey rest k && nodupKeys rest

/-- One adjacency of the JS own-property enumeration order: an array-index
key may only be preceded by an array-index key of no larger numeric value
(so the integer keys form an ascending prefix, before all other keys). -/
def pairOk (k1 k2 : String) : Bool :=
  if isIntKey k2 then isIntKey k1 && decide (keyToNat k1 ≤ keyToNat k2) else true

/-- Whether a key list is in JS own-property enumeration order: ascending
array-index keys first, then the remaining keys. -/
def keysOrderOk : List String → Bool
  | [] => true
  | [_] => true
  | k1 :: k2 :: rest => pairOk k1 k2 && keysOrderOk (k2 :: rest)

/-- Fold a member list into a record with repeated JavaScript property
assignments, as the materializer does one `handleValueEnd` at a time. -/
def buildFields (o : List (String × JsonValue)) (kvs : List (String × JsonValue)) :
    List (String × JsonValue) :=
  kvs.foldl (fun acc kv => recordSet acc kv.1 kv.2) o

mutual

/-- The value the materializer actually builds from an encoding of `v`:
strings, numbers, booleans and null are kept, arrays are canonicalized
itemwise, and each object's member list is folded with JavaScript property
assignment (`buildFields`), so duplicate keys collapse to the last write and
keys sit in JS enumeration order. -/
def canonicalize : JsonValue → JsonValue
  | .str s => .str s
  | .num lit => .num lit
  | .bool b => .bool b
  | .null => .null
  | .obj kvs => .obj (buildFields [] (canonicalizeFields kvs))
  | .arr xs => .arr (canonicalizeItems xs)

/-- Canonicalize the values of a member list (keys and order kept). -/
def canonicalizeFields : List (String × JsonValue) → List (String × JsonValue)
  | [] => []
  | (k, v) :: rest => (k, canonicalize v) :: canonicalizeFields rest

/-- Canonicalize each item of a list. -/
def canonicalizeItems : List JsonValue → List JsonValue
  | [] => []
  | v :: rest => canonicalize v :: canonicalizeItems rest

end

/-- Concatenation of a list of strings. -/
def concatStrs : List String → String
  | [] => ""
  | t :: ts => t ++ concatStrs ts

/-- First-match association lookup in a record. -/
def lookupKey : List (String × JsonValue) → String → Option JsonValue
  | [], _ => none
  | (k0, v0) :: rest, k => if k0 = k then some v0 else lookupKey rest k

/-- The value of the LAST binding of `k` in a member list (the value a
last-write-wins mapping must associate to `k`). -/
def lastWins : List (String × JsonValue) → String → Option JsonValue
  | [], _ => none
  | (k0, v0) :: rest, k =>
    match lastWins rest k with
    | some w => some w
    | none => if k0 = k then some v0 else none

/-- Deduplicate a key list keeping first occurrences, skipping keys already
in `seen`. -/
def dedupKeysGo (seen : List String) : List String → List String
  | [] => []
  | k :: rest =>
    if memStr seen k then dedupKeysGo seen rest
    else k :: dedupKeysGo (k :: seen) rest

/-- Deduplicate a key list keeping the first occurrence of each key. -/
def dedupFirst (l : List String) : List String := dedupKeysGo [] l

/-- Index type for the chunk-encoding relation: a single root value with the
path on its first chunk, a run of array items, or a run of object members. -/
inductive EncIdx where
  | val (v : JsonValue) (p : JsonPath) (cs : List JsonChunkWithPath)
  | items (vs : List JsonValue) (cs : List JsonChunkWithPath)
  | fields (kvs : List (String × JsonValue)) (cs : List JsonChunkWithPath)

/-- `Encodes (.val v p cs)` says the chunk list `cs` is a well-formed token
encoding of the value `v` whose first chunk carries path `p`: primitives as a
single chunk, strings as a `StringStart`/arbitrarily partitioned
`StringChunk`s/`StringEnd` run, containers as their boundary tokens around
their member runs. Paths on non-first chunks are arbitrary.
`.items`/`.fields` are the corresponding runs for array items and object
members (a member is a key token run followed by a value encoding). -/
inductive Encodes : EncIdx → Prop where
  | num (lit : String) (p : JsonPath) :
      Encodes (.val (.num lit) p [⟨.numberValue lit, p⟩])
  | boolean (b : Bool) (p : JsonPath) :
      Encodes (.val (.bool b) p [⟨.booleanValue b, p⟩])
  | nullv (p : JsonPath) :
      Encodes (.val .null p [⟨.nullValue, p⟩])
  | strv (tps : List (String × JsonPath)) (p q : JsonPath) :
      Encodes (.val (.str (concatStrs (tps.map Prod.fst))) p
        (⟨.stringStart .value, p⟩ ::
          (tps.map (fun tp => ⟨.stringChunk .value tp.1, tp.2⟩) ++
            [⟨.stringEnd .value, q⟩])))
  | arrv (vs : List JsonValue) (cs : List JsonChunkWithPath) (p q : JsonPath) :
      Encodes (.items vs cs) →
      Encodes (.val (.arr vs) p (⟨.arrayStart, p⟩ :: (cs ++ [⟨.arrayEnd, q⟩])))
  | objv (kvs : List (String × JsonValue)) (cs : List JsonChunkWithPath) (p q : JsonPath) :
      Encodes (.fields kvs cs) →
      Encodes (.val (.obj kvs) p (⟨.objectStart, p⟩ :: (cs ++ [⟨.objectEnd, q⟩])))
  | itemsNil : Encodes (.items [] [])
  | itemsCons (v : JsonValue) (p : JsonPath) (cs : List JsonChunkWithPath)
      (vs : List JsonValue) (rest : List JsonChunkWithPath) :
      Encodes (.val v p cs) → Encodes (.items vs rest) →
      Encodes (.items (v :: vs) (cs ++ rest))
  | fieldsNil : Encodes (.fields [] [])
  | fieldsCons (tps : List (String × JsonPath)) (q0 q1 : JsonPath)
      (v : JsonValue) (p : JsonPath) (vcs : List JsonChunkWithPath)
      (kvs : List (String × JsonValue)) (rest : List JsonChunkWithPath) :
      Encodes (.val v p vcs) → Encodes (.fields kvs rest) →
      Encodes (.fields ((concatStrs (tps.map Prod.fst), v) :: kvs)
        ((⟨.stringStart .key, q0⟩ ::
          (tps.map (fun tp => ⟨.stringChunk .key tp.1, tp.2⟩) ++
            [⟨.stringEnd .key, q1⟩])) ++ (vcs ++ rest)))

/-- The statement proved by induction over `Encodes`: feeding an encoding of
a value into the materializer, from any state, sets the state's in-progress
value to the value the code actually builds (`canonicalize v`; at root, also
the path) and performs one value-completion; feeding an item run extends the
open array; feeding a member run folds the members into the open object with
JavaScript assignment. No well-formedness of the value is assumed: duplicate
keys and arbitrary nesting are covered. -/
def EncGoal : EncIdx → Prop
  | .val v p cs => ∀ s : DeserializerState,
      processChunks s cs = handleValueEnd (s.setValueAndRootPath (canonicalize v) p)
  | .items vs cs =>
      ∀ (a : List JsonValue) (par : DeserializerState),
        processChunks (.arrayItem a none par) cs =
          (.arrayItem (a ++ canonicalizeItems vs) none par, [])
  | .fields kvs cs =>
      ∀ (o : List (String × JsonValue)) (par : DeserializerState),
        processChunks (.objectProperty o "" none par) cs =
          (.objectProperty (buildFields o (canonicalizeFields kvs)) "" none par, [])

/-! ## Spec-modelled pipeline stages

The sources of `JsonParser`, `JsonPathDetector`, `JsonPathSelector` and
`JsonPathStreamSplitter` are not part of the provided tree (only their tests
are), so the following definitions are modelled from the specification text
(§4.1-§4.4 and §5-§7 of the spec). -/

/-- Scanner mode of the tokenizer: between tokens, inside a string (with an
escape possibly pending), inside a `\u` hex escape, inside a numeric literal,
or matching the tail of a `true`/`false`/`null` keyword. -/
inductive ScanMode where
  | normal
  | inString (role : StringRole) (acc : List Char) (escape : Bool)
  | inStringHex (role : StringRole) (acc : List Char) (hex : List Char)
  | inNumber (acc : List Char)
  | inLiteral (rest : List Char) (out : JsonChunk)

/-- Container context of the tokenizer: an open object (with whether the next
string is expected to be a key) or an open array. -/
inductive ParCtx where
  | inObject (expectKey : Bool)
  | inArray
deriving DecidableEq

/-- Modelled from the spec: the state of `JsonParser` (tokenizer, spec §4.1):
scanner mode, explicit stack of open containers, offset within the overall
input, emitted chunks, and a fatal `ParseError` message once malformed input
is seen. Numeric literal validation is not modelled (no claim exercises it);
the literal text is carried through as scanned. -/
structure ParserState where
  mode : ScanMode
  stack : List ParCtx
  pos : Nat
  out : List JsonChunk
  err : Option String

/-- Is `c` JSON whitespace? -/
def isJsonWs (c : Char) : Bool :=
  c = ' ' || c = '\t' || c = '\n' || c = '\r'

/-- Is `c` a character that may continue a numeric literal? -/
def isNumChar (c : Char) : Bool :=
  c.isDigit || c = '-' || c = '+' || c = '.' || c = 'e' || c = 'E'

/-- Set the expect-key flag of the innermost open object. -/
def setExpectKey (b : Bool) : List ParCtx → List ParCtx
  | [] => []
  | [.inObject _] => [.inObject b]
  | [f] => [f]
  | f :: rest => f :: setExpectKey b rest

/-- Whether the innermost open container is an object expecting a key. -/
def topExpectsKey : List ParCtx → Bool
  | [] => false
  | [.inObject b] => b
  | [_] => false
  | _ :: rest => topExpectsKey rest

/-- The innermost open container, if any. -/
def topCtx : List ParCtx → Option ParCtx
  | [] => none
  | [f] => some f
  | _ :: rest => topCtx rest

/-- Append one chunk to the tokenizer output. -/
def emit (st : ParserState) (c : JsonChunk) : ParserState :=
  { st with out := st.out ++ [c] }

/-- Fail the tokenizer with a `ParseError` (reason and offset are kept; no
partial chunk for the offending token is emitted). -/
def parseFail (st : ParserState) (msg : String) : ParserState :=
  { st with err := some msg }

/-- Modelled from the spec: one character in `normal` scanner mode. -/
def normalStep (st : ParserState) (c : Char) : ParserState :=
  if isJsonWs c then st
  else if c = '\x7b' then
    { emit st .objectStart with stack := st.stack ++ [.inObject true] }
  else if c = '\x7d' then
    match topCtx st.stack with
    | some (.inObject _) => { emit st .objectEnd with stack := st.stack.dropLast }
    | _ => parseFail st "unexpected character"
  else if c = '[' then
    { emit st .arrayStart with stack := st.stack ++ [.inArray] }
  else if c = ']' then
    match topCtx st.stack with
    | some .inArray => { emit st .arrayEnd with stack := st.stack.dropLast }
    | _ => parseFail st "unexpected character"
  else if c = ',' then
    match topCtx st.stack with
    | some (.inObject _) => { st with stack := setExpectKey true st.stack }
    | some .inArray => st
    | none => parseFail st "unexpected character"
  else if c = ':' then
    match topCtx st.stack with
    | some (.inObject false) => st
    | _ => parseFail st "unexpected character"
  else if c = '"' then
    let role : StringRole := if topExpectsKey st.stack then .key else .value
    { emit st (.stringStart role) with mode := .inString role [] false }
  else if c = '-' || c.isDigit then
    { st with mode := .inNumber [c] }
  else if c = 't' then { st with mode := .inLiteral ['r', 'u', 'e'] (.booleanValue true) }
  else if c = 'f' then { st with mode := .inLiteral ['a', 'l', 's', 'e'] (.booleanValue false) }
  else if c = 'n' then { st with mode := .inLiteral ['u', 'l', 'l'] .nullValue }
  else parseFail st "unexpected character"

/-- Close the current string token: emit its content as one `StringChunk`
followed by `StringEnd` (the spec leaves chunk granularity unconstrained;
claim C7 proves the materializer is invariant to it), and consume the
pending key flag when the string was a key. -/
def closeString (st : ParserState) (role : StringRole) (acc : List Char) : ParserState :=
  let st1 := emit (emit st (.stringChunk role (String.mk acc))) (.stringEnd role)
  let st2 := match role with
    | .key => { st1 with stack := setExpectKey false st1.stack }
    | .value => st1
  { st2 with mode := .normal }

/-- Modelled from the spec: one character of input, before position
accounting. A fragment boundary can fall anywhere, so this is a plain
character-level state machine: no character is lost or duplicated when a
token spans fragments. -/
def scanChar (st : ParserState) (c : Char) : ParserState :=
  match st.mode with
  | .normal => normalStep st c
  | .inString role acc escape =>
    if escape then
      if c = '"' then { st with mode := .inString role (acc ++ ['"']) false }
      else if c = '\\' then { st with mode := .inString role (acc ++ ['\\']) false }
      else if c = '/' then { st with mode := .inString role (acc ++ ['/']) false }
      else if c = 'b' then { st with mode := .inString role (acc ++ ['\x08']) false }
      else if c = 'f' then { st with mode := .inString role (acc ++ ['\x0C']) false }
      else if c = 'n' then { st with mode := .inString role (acc ++ ['\n']) false }
      else if c = 'r' then { st with mode := .inString role (acc ++ ['\r']) false }
      else if c = 't' then { st with mode := .inString role (acc ++ ['\t']) false }
      else if c = 'u' then { st with mode := .inStringHex role acc [] }
      else parseFail st "invalid escape"
    else if c = '\\' then { st with mode := .inString role acc true }
    else if c = '"' then closeString st role acc
    else { st with mode := .inString role (acc ++ [c]) false }
  | .inStringHex role acc hex =>
    if c.isDigit || (c ≥ 'a' && c ≤ 'f') || (c ≥ 'A' && c ≤ 'F') then
      let hex2 := hex ++ [c]
      if hex2.length = 4 then
        let n := hex2.foldl (fun acc2 h => acc2 * 16 +
          (if h.isDigit then h.toNat - 48
            else if h ≥ 'a' then h.toNat - 87 else h.toNat - 55)) 0
        { st with mode := .inString role (acc ++ [Char.ofNat n]) false }
      else { st with mode := .inStringHex role acc hex2 }
    else parseFail st "invalid escape"
  | .inNumber acc =>
    if isNumChar c then { st with mode := .inNumber (acc ++ [c]) }
    else normalStep { emit st (.numberValue (String.mk acc)) with mode := .normal } c
  | .inLiteral rest out =>
    match rest with
    | [] => parseFail st "unexpected character"
    | r :: rs =>
      if c = r then
        if rs.isEmpty then { emit st out with mode := .normal }
        else { st with mode := .inLiteral rs out }
      else parseFail st "unexpected character"

/-- Modelled from the spec: one character of tokenizer input. Once a
`ParseError` happened the input is not scanned further (the error is
terminal for the sequence); the offset advances with every character. -/
def parserStep (st : ParserState) (c : Char) : ParserState :=
  if st.err.isSome then st
  else { scanChar st c with pos := st.pos + 1 }

/-- End-of-input handling: a pending numeric literal is emitted, an
unterminated string or keyword is a `ParseError`. -/
def parserFlush (st : ParserState) : ParserState :=
  if st.err.isSome then st
  else match st.mode with
    | .normal => st
    | .inNumber acc => { emit st (.numberValue (String.mk acc)) with mode := .normal }
    | .inString _ _ _ => parseFail st "unterminated string"
    | .inStringHex _ _ _ => parseFail st "unterminated string"
    | .inLiteral _ _ => parseFail st "unexpected end of input"

/-- The initial tokenizer state. -/
def initParser : ParserState := ⟨.normal, [], 0, [], none⟩

/-- Feed a list of characters to the tokenizer. -/
def parserFeed (st : ParserState) (cs : List Char) : ParserState :=
  cs.foldl parserStep st

/-- Feed a sequence of text fragments to the tokenizer, fragment by
fragment. -/
def parserFeedFrags (st : ParserState) (fs : List String) : ParserState :=
  fs.foldl (fun s f => parserFeed s f.data) st

/-- Tokenize a complete text. -/
def tokenizeString (s : String) : ParserState :=
  parserFlush (parserFeed initParser s.data)

/-- Tokenize a fragment sequence (spec §4.1: arbitrary boundaries, no
alignment with JSON syntax). -/
def tokenizeFragments (fs : List String) : ParserState :=
  parserFlush (parserFeedFrags initParser fs)

/-- Modelled from the spec: a stack frame of `JsonPathDetector` (path
tracker, spec §4.2): for an object, the key currently in force (none while
the next key is still being read) and the key text being accumulated; for an
array, the next-index counter. -/
inductive DetFrame where
  | objFrame (curKey : Option String) (keyAcc : String)
  | arrFrame (idx : Nat)

/-- The path segments a frame contributes: its current key or index; an
object frame whose key is not yet in force contributes nothing (chunks seen
there — key tokens and the closing boundary — live at the object's own
path). -/
def frameSegs : DetFrame → List Seg
  | .objFrame (some k) _ => [.key k]
  | .objFrame none _ => []
  | .arrFrame i => [.idx i]

/-- The path of the position currently observed (root-first stack). -/
def stackPath (st : List DetFrame) : JsonPath :=
  (st.map frameSegs).flatten

/-- Apply `f` to the innermost (last) frame. -/
def mapLast (f : DetFrame → DetFrame) : List DetFrame → List DetFrame
  | [] => []
  | [fr] => [f fr]
  | fr :: rest => fr :: mapLast f rest

/-- A value at the innermost position completed: the enclosing object's key
goes out of force, an enclosing array's index advances. -/
def completeTop (st : List DetFrame) : List DetFrame :=
  mapLast (fun fr => match fr with
    | .objFrame _ acc => .objFrame none acc
    | .arrFrame i => .arrFrame (i + 1)) st

/-- Modelled from the spec: one chunk through `JsonPathDetector`: re-emit it
annotated with the path of the position where it is observed, and update the
mirrored container stack (key tokens accumulate the pending key, which comes
into force at the key's end; completed values advance the enclosing
frame). -/
def detStep (st : List DetFrame) (c : JsonChunk) : List DetFrame × JsonChunkWithPath :=
  match c with
  | .objectStart => (st ++ [.objFrame none ""], ⟨c, stackPath st⟩)
  | .arrayStart => (st ++ [.arrFrame 0], ⟨c, stackPath st⟩)
  | .objectEnd => (completeTop st.dropLast, ⟨c, stackPath st.dropLast⟩)
  | .arrayEnd => (completeTop st.dropLast, ⟨c, stackPath st.dropLast⟩)
  | .stringStart .key =>
    (mapLast (fun fr => match fr with
      | .objFrame k _ => .objFrame k ""
      | fr2 => fr2) st, ⟨c, stackPath st⟩)
  | .stringChunk .key t =>
    (mapLast (fun fr => match fr with
      | .objFrame k acc => .objFrame k (acc ++ t)
      | fr2 => fr2) st, ⟨c, stackPath st⟩)
  | .stringEnd .key =>
    (mapLast (fun fr => match fr with
      | .objFrame _ acc => .objFrame (some acc) acc
      | fr2 => fr2) st, ⟨c, stackPath st⟩)
  | .stringStart .value => (st, ⟨c, stackPath st⟩)
  | .stringChunk .value _ => (st, ⟨c, stackPath st⟩)
  | .stringEnd .value => (completeTop st, ⟨c, stackPath st⟩)
  | .numberValue _ => (completeTop st, ⟨c, stackPath st⟩)
  | .booleanValue _ => (completeTop st, ⟨c, stackPath st⟩)
  | .nullValue => (completeTop st, ⟨c, stackPath st⟩)

/-- Annotate every chunk with its path (the whole detector pass). -/
def detectPaths (cs : List JsonChunk) : List JsonChunkWithPath :=
  (cs.foldl (fun acc c =>
    let r := detStep acc.1 c
    (r.1, acc.2 ++ [r.2])) (([] : List DetFrame), ([] : List JsonChunkWithPath))).2

/-- A path pattern segment: a literal segment or a wildcard (`undefined` in
the TypeScript API), which matches any single segment. -/
def PatSeg := Option Seg

/-- Modelled from the spec: prefix matching of a pattern against a path
(spec §3): a pattern of length `n` matches a path of length at least `n` on
its first `n` segments; shorter paths do not match. -/
def patMatch : List PatSeg → JsonPath → Bool
  | [], _ => true
  | _ :: _, [] => false
  | p :: ps, s :: ss =>
    (match p with
      | none => true
      | some x => decide (x = s)) && patMatch ps ss

/-- Modelled from the spec: one chunk through `JsonPathSelector` (spec
§4.3). State: `none` outside a matched region, `some d` inside one with `d`
containers open. A matching container boundary opens a region (all its
descendants are forwarded until the matching close); a matching non-container
chunk is forwarded by itself; everything else is dropped without
buffering. -/
def selStep (pat : List PatSeg) (inside : Option Nat) (c : JsonChunkWithPath) :
    Option Nat × List JsonChunkWithPath :=
  match inside with
  | some d =>
    let d2 : Nat := match c.chunk with
      | .objectStart => d + 1
      | .arrayStart => d + 1
      | .objectEnd => d - 1
      | .arrayEnd => d - 1
      | _ => d
    (if d2 = 0 then none else some d2, [c])
  | none =>
    if patMatch pat c.path then
      match c.chunk with
      | .objectStart => (some 1, [c])
      | .arrayStart => (some 1, [c])
      | _ => (none, [c])
    else (none, [])

/-- The whole selector pass. -/
def selectChunks (pat : List PatSeg) (cs : List JsonChunkWithPath) :
    List JsonChunkWithPath :=
  (cs.foldl (fun acc c =>
    let r := selStep pat acc.1 c
    (r.1, acc.2 ++ r.2)) ((none : Option Nat), ([] : List JsonChunkWithPath))).2

/-- How far an open sub-stream run extends: a container run with its open
depth, or a chunked string run (until its `StringEnd`). -/
inductive RunMode where
  | container (depth : Nat)
  | strRun

/-- A sub-stream descriptor as delivered to the consumer: the concrete
matched path and the chunk sequence of that subtree (including its boundary
tokens). -/
structure SubStream where
  path : JsonPath
  chunks : List JsonChunkWithPath
deriving DecidableEq

/-- A sub-stream still being filled by the splitter. -/
structure OpenSub where
  path : JsonPath
  chunks : List JsonChunkWithPath
  mode : RunMode

/-- Modelled from the spec: one chunk through `JsonPathStreamSplitter` (spec
§4.4): a chunk arriving with no open sub-stream starts a new descriptor whose
path is the chunk's path (final the moment the boundary chunk arrives); the
descriptor is filled until its subtree's closing boundary, then completed. -/
def splitStep (acc : List SubStream × Option OpenSub) (c : JsonChunkWithPath) :
    List SubStream × Option OpenSub :=
  match acc.2 with
  | none =>
    match c.chunk with
    | .objectStart => (acc.1, some ⟨c.path, [c], .container 1⟩)
    | .arrayStart => (acc.1, some ⟨c.path, [c], .container 1⟩)
    | .stringStart _ => (acc.1, some ⟨c.path, [c], .strRun⟩)
    | _ => (acc.1 ++ [⟨c.path, [c]⟩], none)
  | some o =>
    match o.mode with
    | .strRun =>
      match c.chunk with
      | .stringEnd _ => (acc.1 ++ [⟨o.path, o.chunks ++ [c]⟩], none)
      | _ => (acc.1, some ⟨o.path, o.chunks ++ [c], .strRun⟩)
    | .container d =>
      let d2 : Nat := match c.chunk with
        | .objectStart => d + 1
        | .arrayStart => d + 1
        | .objectEnd => d - 1
        | .arrayEnd => d - 1
        | _ => d
      if d2 = 0 then (acc.1 ++ [⟨o.path, o.chunks ++ [c]⟩], none)
      else (acc.1, some ⟨o.path, o.chunks ++ [c], .container d2⟩)

/-- The whole splitter pass: completed descriptors in emission order, plus
the still-open one, if any. -/
def splitChunks (cs : List JsonChunkWithPath) : List SubStream × Option OpenSub :=
  cs.foldl splitStep ([], none)

/-- The full pipeline of spec §2 on a fragment sequence: tokenizer → path
tracker → selector (with the given pattern) → splitter; the completed
sub-stream descriptors in emission order. -/
def pipeline (frags : List String) (pat : List PatSeg) : List SubStream :=
  (splitChunks (selectChunks pat (detectPaths (tokenizeFragments frags).out))).1

/-- How a stream ends: normal completion or a forwarded error. -/
inductive StreamTerm where
  | done
  | errorTerm (e : String)
deriving DecidableEq

/-- A sub-stream as observed by its consumer after the source ended or
failed: delivered chunks and how the next read terminates. -/
structure SubStreamOutcome where
  path : JsonPath
  chunks : List JsonChunkWithPath
  term : StreamTerm
deriving DecidableEq

/-- The splitter's overall observable outcome: every emitted sub-stream's
outcome, and how the main descriptor sequence terminates. -/
structure SplitOutcome where
  subs : List SubStreamOutcome
  mainTerm : StreamTerm

/-- The sub-streams whose opening boundary was seen in `cs` (completed ones
and the still-open one). -/
def emittedSubs (cs : List JsonChunkWithPath) : List SubStream :=
  let r := splitChunks cs
  r.1 ++ (match r.2 with | some o => [⟨o.path, o.chunks⟩] | none => [])

/-- Modelled from the spec: the splitter fed `cs` and then either a normal
end of input or an upstream abort carrying error `e` (spec §4.4 abort
propagation and §7: the failure is delivered to the main descriptor sequence
— no further descriptors — and to every sub-stream already emitted, whose
next read fails with the same error; errors are never swallowed). -/
def splitterRun (cs : List JsonChunkWithPath) (abort : Option String) : SplitOutcome :=
  match abort with
  | none => ⟨(emittedSubs cs).map (fun s => ⟨s.path, s.chunks, .done⟩), .done⟩
  | some e => ⟨(emittedSubs cs).map (fun s => ⟨s.path, s.chunks, .errorTerm e⟩), .errorTerm e⟩

/-- The document of the spec §8 example. -/
def testDocument : String :=
  "\x7b\"apples\":\x7b\"results\":[\"apple1\",\"apple2\"]\x7d,\"cherries\":\x7b\"results\":\x7b\"1\":\"cherry1\",\"2\":\"cherry2\"\x7d\x7d\x7d"

/-- The pattern of the spec §8 example: `[<wildcard>, "results"]`. -/
def resultsPattern : List PatSeg := [none, some (.key "results")]

/-- The fragment boundaries used by the repository's splitter tests. -/
def testFragments : List String :=
  ["\x7b\"apples\":\x7b\"results\":[",
    "\"apple1\",",
    "\"apple2\"",
    "]\x7d,\"cherries\":\x7b\"results\":\x7b",
    "\"1\":\"cherry1\",",
    "\"2\":\"cherry2\"",
    "\x7d\x7d\x7d"]

/-! ## Helper lemmas about the materializer -/

theorem processChunks_cons (s : DeserializerState) (c : JsonChunkWithPath)
    (rest : List JsonChunkWithPath) :
    processChunks s (c :: rest) =
      ((processChunks (transform s c).1 rest).1,
        (transform s c).2 ++ (processChunks (transform s c).1 rest).2) := rfl

/-- Appending chunk lists composes the runs: the state threads through and the
emissions concatenate, so the emissions of a prefix are a prefix of the
emissions of the whole input. -/
theorem processChunks_append (s : DeserializerState) (xs ys : List JsonChunkWithPath) :
    processChunks s (xs ++ ys) =
      ((processChunks (processChunks s xs).1 ys).1,
        (processChunks s xs).2 ++ (processChunks (processChunks s xs).1 ys).2) := by
  induction xs generalizing s with
  | nil => simp [processChunks]
  | cons c rest ih =>
    simp only [List.cons_append, processChunks, List.append_eq, ih (transform s c).1,
      List.append_assoc]

theorem getValue_setValue (s : DeserializerState) (v : Option JsonValue) :
    (s.setValue v).getValue = v := by
  cases s <;> rfl

theorem setValue_setValue (s : DeserializerState) (v w : Option JsonValue) :
    (s.setValue v).setValue w = s.setValue w := by
  cases s <;> rfl

theorem setValue_getValue (s : DeserializerState) : s.setValue s.getValue = s := by
  cases s <;> rfl

theorem getValue_setValueAndRootPath (s : DeserializerState) (v : JsonValue) (p : JsonPath) :
    (s.setValueAndRootPath v p).getValue = some v := by
  cases s <;> rfl

theorem setValue_setValueAndRootPath (s : DeserializerState) (v w : JsonValue) (p : JsonPath) :
    (s.setValueAndRootPath v p).setValue (some w) = s.setValueAndRootPath w p := by
  cases s <;> rfl

/-- Processing a run of value-role `StringChunk`s appends their concatenated
text to the string in progress and emits nothing. -/
theorem stringRun (tps : List (String × JsonPath)) (s : DeserializerState) (acc : String)
    (h : s.getValue = some (.str acc)) :
    processChunks s (tps.map (fun tp => ⟨.stringChunk .value tp.1, tp.2⟩)) =
      (s.setValue (some (.str (acc ++ concatStrs (tps.map Prod.fst)))), []) := by
  induction tps generalizing s acc with
  | nil =>
    simp only [List.map_nil, processChunks, concatStrs, String.append_empty, ← h,
      setValue_getValue]
  | cons tp tps ih =>
    rw [List.map_cons, processChunks_cons]
    have hstep : transform s ⟨.stringChunk .value tp.1, tp.2⟩ =
        (s.setValue (some (.str (acc ++ tp.1))), []) := by
      simp [transform, jsToString, h]
    rw [hstep]
    have h2 : (s.setValue (some (.str (acc ++ tp.1)))).getValue =
        some (.str (acc ++ tp.1)) := getValue_setValue s _
    rw [ih _ _ h2]
    simp [setValue_setValue, concatStrs, String.append_assoc]

/-- Processing a run of key-role `StringChunk`s appends their concatenated
text to the key in progress and emits nothing. -/
theorem keyRun (tps : List (String × JsonPath)) (o : List (String × JsonValue))
    (k : String) (v : Option JsonValue) (par : DeserializerState) :
    processChunks (.objectProperty o k v par)
        (tps.map (fun tp => ⟨.stringChunk .key tp.1, tp.2⟩)) =
      (.objectProperty o (k ++ concatStrs (tps.map Prod.fst)) v par, []) := by
  induction tps generalizing k with
  | nil => simp [processChunks, concatStrs]
  | cons tp tps ih =>
    rw [List.map_cons, processChunks_cons]
    have hstep : transform (.objectProperty o k v par) ⟨.stringChunk .key tp.1, tp.2⟩ =
        (.objectProperty o (k ++ tp.1) v par, []) := rfl
    rw [hstep, ih (k ++ tp.1)]
    simp [concatStrs, String.append_assoc]

/-- A complete value-role string token run (start, arbitrarily partitioned
chunks, end) sets the in-progress value to the concatenated text and triggers
exactly one value completion, at the `StringEnd` chunk. -/
theorem stringValueRun (s : DeserializerState) (p q : JsonPath)
    (tps : List (String × JsonPath)) :
    processChunks s (⟨.stringStart .value, p⟩ ::
        (tps.map (fun tp => ⟨.stringChunk .value tp.1, tp.2⟩) ++
          [⟨.stringEnd .value, q⟩])) =
      handleValueEnd (s.setValueAndRootPath (.str (concatStrs (tps.map Prod.fst))) p) := by
  rw [processChunks_cons]
  have hstart : transform s ⟨.stringStart .value, p⟩ =
      (s.setValueAndRootPath (.str "") p, []) := rfl
  rw [hstart, processChunks_append,
    stringRun tps _ "" (getValue_setValueAndRootPath s _ p)]
  simp only [String.empty_append, setValue_setValueAndRootPath]
  rw [processChunks_cons]
  have hend : transform (s.setValueAndRootPath (.str (concatStrs (tps.map Prod.fst))) p)
      ⟨.stringEnd .value, q⟩ =
      handleValueEnd (s.setValueAndRootPath (.str (concatStrs (tps.map Prod.fst))) p) := rfl
  rw [hend]
  simp [processChunks]

/-- A complete key token run (start, arbitrarily partitioned chunks, end)
accumulates the key text and emits nothing; the start and end tokens for the
key role are ignored by the materializer. -/
theorem keyTokenRun (tps : List (String × JsonPath)) (q0 q1 : JsonPath)
    (o : List (String × JsonValue)) (par : DeserializerState) :
    processChunks (.objectProperty o "" none par)
        (⟨.stringStart .key, q0⟩ ::
          (tps.map (fun tp => ⟨.stringChunk .key tp.1, tp.2⟩) ++
            [⟨.stringEnd .key, q1⟩])) =
      (.objectProperty o (concatStrs (tps.map Prod.fst)) none par, []) := by
  rw [processChunks_cons,
    show transform (.objectProperty o "" none par) ⟨.stringStart .key, q0⟩ =
      ((.objectProperty o "" none par : DeserializerState), []) from rfl,
    processChunks_append, keyRun]
  simp only [String.empty_append]
  rw [processChunks_cons,
    show transform (.objectProperty o (concatStrs (tps.map Prod.fst)) none par)
        ⟨.stringEnd .key, q1⟩ =
      ((.objectProperty o (concatStrs (tps.map Prod.fst)) none par :
        DeserializerState), []) from rfl]
  simp [processChunks]

/-! ## Record (JavaScript object) lemmas -/

theorem buildFields_cons (o : List (String × JsonValue)) (k : String) (v : JsonValue)
    (kvs : List (String × JsonValue)) :
    buildFields o ((k, v) :: kvs) = buildFields (recordSet o k v) kvs := rfl

theorem hasKey_append (o1 o2 : List (String × JsonValue)) (k : String) :
    hasKey (o1 ++ o2) k = (hasKey o1 k || hasKey o2 k) := by
  induction o1 with
  | nil => simp [hasKey]
  | cons kv rest ih => obtain ⟨k0, v0⟩ := kv; simp [hasKey, ih, Bool.or_assoc]

theorem keys_setExisting (o : List (String × JsonValue)) (k : String) (v : JsonValue) :
    (setExisting o k v).map Prod.fst = o.map Prod.fst := by
  induction o with
  | nil => rfl
  | cons kv rest ih =>
    obtain ⟨k0, v0⟩ := kv
    by_cases h0 : k0 = k <;> simp [setExisting, h0, ih]

theorem hasKey_setExisting (o : List (String × JsonValue)) (k : String) (v : JsonValue)
    (k' : String) : hasKey (setExisting o k v) k' = hasKey o k' := by
  induction o with
  | nil => rfl
  | cons kv rest ih =>
    obtain ⟨k0, v0⟩ := kv
    by_cases h0 : k0 = k <;> simp [setExisting, h0, hasKey, ih]

theorem nodupKeys_setExisting (o : List (String × JsonValue)) (k : String) (v : JsonValue) :
    nodupKeys (setExisting o k v) = nodupKeys o := by
  induction o with
  | nil => rfl
  | cons kv rest ih =>
    obtain ⟨k0, v0⟩ := kv
    by_cases h0 : k0 = k <;>
      simp [setExisting, h0, nodupKeys, hasKey_setExisting, ih]

theorem lookupKey_setExisting (o : List (String × JsonValue)) (k k' : String) (v : JsonValue)
    (h : hasKey o k = true) :
    lookupKey (setExisting o k v) k' = if k' = k then some v else lookupKey o k' := by
  induction o with
  | nil => simp [hasKey] at h
  | cons kv rest ih =>
    obtain ⟨k0, v0⟩ := kv
    rcases eq_or_ne k0 k with rfl | h0
    · rcases eq_or_ne k' k0 with rfl | h'
      · simp [setExisting, lookupKey]
      · simp [setExisting, lookupKey, h', (Ne.symm h')]
    · have h2 : hasKey rest k = true := by
        simpa [hasKey, beq_eq_false_iff_ne.mpr h0] using h
      rcases eq_or_ne k0 k' with rfl | h'
      · simp [setExisting, h0, lookupKey, (Ne.symm h0)]
      · simp [setExisting, h0, lookupKey, h', ih h2]

theorem hasKey_insertIntKey (o : List (String × JsonValue)) (k : String) (v : JsonValue)
    (k' : String) : hasKey (insertIntKey o k v) k' = (hasKey o k' || (k' == k)) := by
  induction o with
  | nil => simp [insertIntKey, hasKey, BEq.comm]
  | cons kv rest ih =>
    obtain ⟨k0, v0⟩ := kv
    by_cases hc : (isIntKey k0 && decide (keyToNat k0 < keyToNat k)) = true
    · simp [insertIntKey, hc, hasKey, ih, Bool.or_assoc]
    · simp only [Bool.not_eq_true] at hc
      simp [insertIntKey, hc, hasKey, BEq.comm, Bool.or_comm, Bool.or_left_comm]

theorem lookupKey_eq_none (o : List (String × JsonValue)) (k : String)
    (h : hasKey o k = false) : lookupKey o k = none := by
  induction o with
  | nil => rfl
  | cons kv rest ih =>
    obtain ⟨k0, v0⟩ := kv
    simp only [hasKey, Bool.or_eq_false_iff, beq_eq_false_iff_ne] at h
    simp [lookupKey, h.1, ih h.2]

theorem lookupKey_append (o1 o2 : List (String × JsonValue)) (k : String) :
    lookupKey (o1 ++ o2) k =
      (match lookupKey o1 k with
        | some v => some v
        | none => lookupKey o2 k) := by
  induction o1 with
  | nil => simp [lookupKey]
  | cons kv rest ih =>
    obtain ⟨k0, v0⟩ := kv
    by_cases h : k0 = k <;> simp [lookupKey, h, ih]

theorem lookupKey_insertIntKey (o : List (String × JsonValue)) (k k' : String) (v : JsonValue)
    (h : hasKey o k = false) :
    lookupKey (insertIntKey o k v) k' = if k' = k then some v else lookupKey o k' := by
  induction o with
  | nil =>
    rcases eq_or_ne k' k with rfl | h'
    · simp [insertIntKey, lookupKey]
    · simp [insertIntKey, lookupKey, h', (Ne.symm h')]
  | cons kv rest ih =>
    obtain ⟨k0, v0⟩ := kv
    have hh : (k0 == k) = false ∧ hasKey rest k = false := by
      simpa [hasKey, Bool.or_eq_false_iff] using h
    have hk0 : k0 ≠ k := beq_eq_false_iff_ne.mp hh.1
    by_cases hc : (isIntKey k0 && decide (keyToNat k0 < keyToNat k)) = true
    · rcases eq_or_ne k0 k' with rfl | h'
      · simp [insertIntKey, hc, lookupKey, (Ne.symm hk0), hk0]
      · simp [insertIntKey, hc, lookupKey, h', ih hh.2]
    · simp only [Bool.not_eq_true] at hc
      rcases eq_or_ne k k' with rfl | h'
      · simp [insertIntKey, hc, lookupKey]
      · simp [insertIntKey, hc, lookupKey, h', (Ne.symm h')]

theorem lookupKey_recordSet (o : List (String × JsonValue)) (k k' : String) (v : JsonValue) :
    lookupKey (recordSet o k v) k' = if k' = k then some v else lookupKey o k' := by
  unfold recordSet
  by_cases hk : hasKey o k = true
  · simp only [hk, if_true]
    exact lookupKey_setExisting o k k' v hk
  · simp only [Bool.not_eq_true] at hk
    simp only [hk, Bool.false_eq_true, if_false]
    by_cases hi : isIntKey k = true
    · simp only [hi, if_true]
      exact lookupKey_insertIntKey o k k' v hk
    · simp only [Bool.not_eq_true] at hi
      simp only [hi, Bool.false_eq_true, if_false]
      rw [lookupKey_append]
      rcases eq_or_ne k' k with rfl | h'
      · simp [lookupKey_eq_none o k' hk, lookupKey]
      · cases hl : lookupKey o k' <;> simp [lookupKey, h', (Ne.symm h'), hl]

theorem hasKey_recordSet (o : List (String × JsonValue)) (k : String) (v : JsonValue)
    (k' : String) : hasKey (recordSet o k v) k' = (hasKey o k' || (k' == k)) := by
  unfold recordSet
  by_cases hk : hasKey o k = true
  · rw [if_pos hk, hasKey_setExisting]
    rcases eq_or_ne k' k with rfl | h'
    · simp [hk]
    · simp [beq_eq_false_iff_ne.mpr h']
  · simp only [Bool.not_eq_true] at hk
    by_cases hi : isIntKey k = true
    · simp [hk, hi, hasKey_insertIntKey]
    · simp only [Bool.not_eq_true] at hi
      simp [hk, hi, hasKey_append, hasKey, BEq.comm]

theorem nodupKeys_append_single (o : List (String × JsonValue)) (k : String) (v : JsonValue)
    (h : hasKey o k = false) (hn : nodupKeys o = true) :
    nodupKeys (o ++ [(k, v)]) = true := by
  induction o with
  | nil => simp [nodupKeys, hasKey]
  | cons kv rest ih =>
    obtain ⟨k0, v0⟩ := kv
    have hh : (k0 == k) = false ∧ hasKey rest k = false := by
      simpa [hasKey, Bool.or_eq_false_iff] using h
    have hn2 : hasKey rest k0 = false ∧ nodupKeys rest = true := by
      simpa [nodupKeys, Bool.and_eq_true, Bool.not_eq_true'] using hn
    have hk0 : (k == k0) = false := by
      rw [beq_eq_false_iff_ne] at hh ⊢
      exact Ne.symm hh.1
    simp [nodupKeys, hasKey_append, hn2.1, hasKey, hk0, ih hh.2 hn2.2]

theorem nodupKeys_insertIntKey (o : List (String × JsonValue)) (k : String) (v : JsonValue)
    (h : hasKey o k = false) (hn : nodupKeys o = true) :
    nodupKeys (insertIntKey o k v) = true := by
  induction o with
  | nil => simp [insertIntKey, nodupKeys, hasKey]
  | cons kv rest ih =>
    obtain ⟨k0, v0⟩ := kv
    have hh : (k0 == k) = false ∧ hasKey rest k = false := by
      simpa [hasKey, Bool.or_eq_false_iff] using h
    have hn2 : hasKey rest k0 = false ∧ nodupKeys rest = true := by
      simpa [nodupKeys, Bool.and_eq_true, Bool.not_eq_true'] using hn
    by_cases hc : (isIntKey k0 && decide (keyToNat k0 < keyToNat k)) = true
    · simp [insertIntKey, hc, nodupKeys, hasKey_insertIntKey, hn2.1, hh.1,
        ih hh.2 hn2.2]
    · simp only [Bool.not_eq_true] at hc
      simp [insertIntKey, hc, nodupKeys, hasKey, hh.1, hh.2, hn2.1, hn2.2,
        beq_eq_false_iff_ne.mp hh.1]

theorem nodupKeys_recordSet (o : List (String × JsonValue)) (k : String) (v : JsonValue)
    (h : nodupKeys o = true) : nodupKeys (recordSet o k v) = true := by
  unfold recordSet
  by_cases hk : hasKey o k = true
  · simp [hk, nodupKeys_setExisting, h]
  · simp only [Bool.not_eq_true] at hk
    by_cases hi : isIntKey k = true
    · simp [hk, hi, nodupKeys_insertIntKey o k v hk h]
    · simp only [Bool.not_eq_true] at hi
      simp [hk, hi, nodupKeys_append_single o k v hk h]

theorem keys_recordSet_str (o : List (String × JsonValue)) (k : String) (v : JsonValue)
    (hs : isIntKey k = false) :
    (recordSet o k v).map Prod.fst =
      if hasKey o k then o.map Prod.fst else o.map Prod.fst ++ [k] := by
  unfold recordSet
  by_cases hk : hasKey o k = true
  · simp [hk, keys_setExisting]
  · simp only [Bool.not_eq_true] at hk
    simp [hk, hs]

theorem nodupKeys_buildFields (kvs : List (String × JsonValue)) :
    ∀ o : List (String × JsonValue), nodupKeys o = true →
      nodupKeys (buildFields o kvs) = true := by
  induction kvs with
  | nil => intro o h; simpa [buildFields] using h
  | cons kv rest ih =>
    intro o h
    obtain ⟨k, v⟩ := kv
    rw [buildFields_cons]
    exact ih _ (nodupKeys_recordSet o k v h)

theorem memStr_keys (o : List (String × JsonValue)) (k : String) :
    memStr (o.map Prod.fst) k = hasKey o k := by
  induction o with
  | nil => rfl
  | cons kv rest ih => obtain ⟨k0, v0⟩ := kv; simp [memStr, hasKey, ih]

theorem memStr_append (a b : List String) (k : String) :
    memStr (a ++ b) k = (memStr a k || memStr b k) := by
  induction a with
  | nil => simp [memStr]
  | cons x rest ih => simp [memStr, ih, Bool.or_assoc]

theorem dedupKeysGo_congr (l : List String) :
    ∀ s1 s2 : List String, (∀ x, memStr s1 x = memStr s2 x) →
      dedupKeysGo s1 l = dedupKeysGo s2 l := by
  induction l with
  | nil => intro s1 s2 _; rfl
  | cons k rest ih =>
    intro s1 s2 h
    simp only [dedupKeysGo, h k]
    by_cases hm : memStr s2 k = true
    · simp [hm, ih s1 s2 h]
    · simp only [Bool.not_eq_true] at hm
      simp [hm, ih (k :: s1) (k :: s2) (fun x => by simp [memStr, h x])]

/-- When no key of the member list is an array-index key, the built record's
keys are the member keys deduplicated to their first occurrences, in
insertion order. -/
theorem keys_buildFields_str (kvs : List (String × JsonValue)) :
    ∀ o : List (String × JsonValue),
      ((kvs.map Prod.fst).all (fun k2 => !isIntKey k2)) = true →
      (buildFields o kvs).map Prod.fst =
        o.map Prod.fst ++ dedupKeysGo (o.map Prod.fst) (kvs.map Prod.fst) := by
  induction kvs with
  | nil => intro o _; simp [buildFields, dedupKeysGo]
  | cons kv rest ih =>
    intro o hall
    obtain ⟨k, v⟩ := kv
    have hs : isIntKey k = false ∧
        ((rest.map Prod.fst).all (fun k2 => !isIntKey k2)) = true := by
      simpa [Bool.and_eq_true, Bool.not_eq_true'] using hall
    rw [buildFields_cons, ih (recordSet o k v) hs.2]
    simp only [List.map_cons, dedupKeysGo, memStr_keys]
    by_cases hk : hasKey o k = true
    · simp [hk, keys_recordSet_str o k v hs.1]
    · simp only [Bool.not_eq_true] at hk
      rw [keys_recordSet_str o k v hs.1]
      simp only [hk, if_false, Bool.false_eq_true]
      rw [dedupKeysGo_congr (rest.map Prod.fst) ((o.map Prod.fst) ++ [k]) (k :: o.map Prod.fst)
        (fun x => by simp [memStr_append, memStr, Bool.or_comm])]
      simp

theorem lookupKey_buildFields (kvs : List (String × JsonValue)) :
    ∀ (o : List (String × JsonValue)) (k : String),
      lookupKey (buildFields o kvs) k =
        (match lastWins kvs k with
          | some w => some w
          | none => lookupKey o k) := by
  induction kvs with
  | nil => intro o k; rfl
  | cons kv rest ih =>
    intro o k
    obtain ⟨k0, v0⟩ := kv
    rw [buildFields_cons, ih (recordSet o k0 v0) k]
    cases hl : lastWins rest k with
    | some w => simp [lastWins, hl]
    | none =>
      simp only [lastWins, hl, lookupKey_recordSet]
      rcases eq_or_ne k k0 with rfl | h
      · simp
      · simp [h, (Ne.symm h)]

/-! ## JS own-property enumeration order is an invariant of the record -/

theorem keysOrderOk_append_str (k : String) (hs : isIntKey k = false) :
    ∀ l : List String, keysOrderOk l = true → keysOrderOk (l ++ [k]) = true
  | [] => fun _ => by simp [keysOrderOk]
  | [k1] => fun _ => by simp [keysOrderOk, pairOk, hs]
  | k1 :: k2 :: rest => fun h => by
    have h2 : pairOk k1 k2 = true ∧ keysOrderOk (k2 :: rest) = true := by
      simpa [keysOrderOk, Bool.and_eq_true] using h
    have hrec := keysOrderOk_append_str k hs (k2 :: rest) h2.2
    simpa [keysOrderOk, Bool.and_eq_true, h2.1] using hrec

/-- Inserting a fresh array-index key at its numeric position keeps the key
list in JS enumeration order. -/
theorem keysOrderOk_insertIntKey (k : String) (v : JsonValue) (hi : isIntKey k = true) :
    ∀ o : List (String × JsonValue), keysOrderOk (o.map Prod.fst) = true →
      keysOrderOk ((insertIntKey o k v).map Prod.fst) = true
  | [] => fun _ => by simp [insertIntKey, keysOrderOk]
  | [(k0, v0)] => fun _ => by
    by_cases hc : (isIntKey k0 && decide (keyToNat k0 < keyToNat k)) = true
    · have hc2 : isIntKey k0 = true ∧ keyToNat k0 < keyToNat k := by
        simpa [Bool.and_eq_true] using hc
      simp [insertIntKey, hc, hc2.1, hc2.2, keysOrderOk, pairOk, hi,
        Nat.le_of_lt hc2.2]
    · simp only [Bool.not_eq_true] at hc
      by_cases hk0 : isIntKey k0 = true
      · have hle : keyToNat k ≤ keyToNat k0 := by
          rcases Nat.lt_or_ge (keyToNat k0) (keyToNat k) with hlt | hge
          · exfalso
            have h3 : (isIntKey k0 && decide (keyToNat k0 < keyToNat k)) = true := by
              simp [hk0, hlt]
            simp [h3] at hc
          · exact hge
        simp [insertIntKey, hc, hk0, Nat.not_lt.mpr hle, keysOrderOk, pairOk, hi, hle]
      · simp only [Bool.not_eq_true] at hk0
        simp [insertIntKey, hc, hk0, keysOrderOk, pairOk]
  | (k0, v0) :: (k1, v1) :: rest => fun h => by
    have h2 : pairOk k0 k1 = true ∧ keysOrderOk (k1 :: rest.map Prod.fst) = true := by
      simpa [keysOrderOk, Bool.and_eq_true] using h
    have hrec := keysOrderOk_insertIntKey k v hi ((k1, v1) :: rest) h2.2
    by_cases hc : (isIntKey k0 && decide (keyToNat k0 < keyToNat k)) = true
    · have hc2 : isIntKey k0 = true ∧ keyToNat k0 < keyToNat k := by
        simpa [Bool.and_eq_true] using hc
      by_cases hc1 : (isIntKey k1 && decide (keyToNat k1 < keyToNat k)) = true
      · -- the insertion continues below `k1`: head adjacency is the original one
        simp only [insertIntKey, hc, if_true, hc1, List.map_cons] at hrec ⊢
        simpa [keysOrderOk, Bool.and_eq_true, h2.1] using hrec
      · -- `k` lands immediately after `k0`
        simp only [Bool.not_eq_true] at hc1
        simp only [insertIntKey, hc, if_true, hc1, Bool.false_eq_true, if_false,
          List.map_cons] at hrec ⊢
        have hp : pairOk k0 k = true := by
          simp [pairOk, hi, hc2.1, Nat.le_of_lt hc2.2]
        simpa [keysOrderOk, Bool.and_eq_true, hp] using hrec
    · -- `k` lands in front of everything
      simp only [Bool.not_eq_true] at hc
      have hp : pairOk k k0 = true := by
        by_cases hk0 : isIntKey k0 = true
        · have hle : keyToNat k ≤ keyToNat k0 := by
            rcases Nat.lt_or_ge (keyToNat k0) (keyToNat k) with hlt | hge
            · exfalso
              have : (isIntKey k0 && decide (keyToNat k0 < keyToNat k)) = true := by
                simp [hk0, hlt]
              simp [this] at hc
            · exact hge
          simp [pairOk, hk0, hi, hle]
        · simp only [Bool.not_eq_true] at hk0
          simp [pairOk, hk0]
      simp only [insertIntKey, hc, Bool.false_eq_true, if_false, List.map_cons]
      simpa [keysOrderOk, Bool.and_eq_true, hp, h2.1] using h2.2

theorem keysOrderOk_recordSet (o : List (String × JsonValue)) (k : String) (v : JsonValue)
    (h : keysOrderOk (o.map Prod.fst) = true) :
    keysOrderOk ((recordSet o k v).map Prod.fst) = true := by
  unfold recordSet
  by_cases hk : hasKey o k = true
  · simp [hk, keys_setExisting, h]
  · simp only [Bool.not_eq_true] at hk
    by_cases hi : isIntKey k = true
    · simp only [hk, Bool.false_eq_true, if_false, hi, if_true]
      exact keysOrderOk_insertIntKey k v hi o h
    · simp only [Bool.not_eq_true] at hi
      simp only [hk, Bool.false_eq_true, hi, if_false, List.map_append, List.map_cons,
        List.map_nil]
      exact keysOrderOk_append_str k hi _ h

theorem keysOrderOk_buildFields (kvs : List (String × JsonValue)) :
    ∀ o : List (String × JsonValue), keysOrderOk (o.map Prod.fst) = true →
      keysOrderOk ((buildFields o kvs).map Prod.fst) = true := by
  induction kvs with
  | nil => intro o h; simpa [buildFields] using h
  | cons kv rest ih =>
    intro o h
    obtain ⟨k, v⟩ := kv
    rw [buildFields_cons]
    exact ih _ (keysOrderOk_recordSet o k v h)

theorem keys_canonicalizeFields (kvs : List (String × JsonValue)) :
    (canonicalizeFields kvs).map Prod.fst = kvs.map Prod.fst := by
  induction kvs with
  | nil => simp [canonicalizeFields]
  | cons kv rest ih => obtain ⟨k, v⟩ := kv; simp [canonicalizeFields, ih]

theorem lastWins_canonicalizeFields (kvs : List (String × JsonValue)) (k : String) :
    lastWins (canonicalizeFields kvs) k = (lastWins kvs k).map canonicalize := by
  induction kvs with
  | nil => simp [canonicalizeFields, lastWins]
  | cons kv rest ih =>
    obtain ⟨k0, v0⟩ := kv
    simp only [canonicalizeFields, lastWins, ih]
    cases lastWins rest k with
    | some w => simp
    | none =>
      by_cases h : k0 = k <;> simp [h]

/-! ## The main induction: feeding an encoding into the materializer -/

theorem encodes_main : ∀ idx : EncIdx, Encodes idx → EncGoal idx := by
  intro idx h
  induction h with
  | num lit p =>
    intro s
    simp [processChunks, transform, canonicalize]
  | boolean b p =>
    intro s
    simp [processChunks, transform, canonicalize]
  | nullv p =>
    intro s
    simp [processChunks, transform, canonicalize]
  | strv tps p q =>
    intro s
    simpa [canonicalize] using stringValueRun s p q tps
  | arrv vs cs p q hitems ih =>
    intro s
    rw [processChunks_cons,
      show transform s ⟨.arrayStart, p⟩ =
        (.arrayItem [] none (s.setValueAndRootPath (.arr []) p), []) from rfl,
      processChunks_append, ih]
    simp only [List.nil_append]
    rw [processChunks_cons,
      show transform (.arrayItem (canonicalizeItems vs) none
          (s.setValueAndRootPath (.arr []) p)) ⟨.arrayEnd, q⟩ =
        handleValueEnd ((s.setValueAndRootPath (.arr []) p).setValue
          (some (.arr (canonicalizeItems vs)))) from rfl,
      setValue_setValueAndRootPath]
    simp [processChunks, canonicalize]
  | objv kvs cs p q hfields ih =>
    intro s
    rw [processChunks_cons,
      show transform s ⟨.objectStart, p⟩ =
        (.objectProperty [] "" none (s.setValueAndRootPath (.obj []) p), []) from rfl,
      processChunks_append, ih]
    rw [processChunks_cons,
      show transform
          (.objectProperty (buildFields [] (canonicalizeFields kvs)) "" none
            (s.setValueAndRootPath (.obj []) p)) ⟨.objectEnd, q⟩ =
        handleValueEnd ((s.setValueAndRootPath (.obj []) p).setValue
          (some (.obj (buildFields [] (canonicalizeFields kvs))))) from rfl,
      setValue_setValueAndRootPath]
    simp [processChunks, canonicalize]
  | itemsNil =>
    intro a par
    simp [processChunks, canonicalizeItems]
  | itemsCons v p cs vs rest hval hrest ihval ihrest =>
    intro a par
    rw [processChunks_append, ihval]
    rw [show handleValueEnd
        ((DeserializerState.arrayItem a none par).setValueAndRootPath (canonicalize v) p) =
      ((.arrayItem (a ++ [canonicalize v]) none par : DeserializerState), []) from rfl]
    rw [ihrest]
    simp [canonicalizeItems]
  | fieldsNil =>
    intro o par
    simp [processChunks, buildFields, canonicalizeFields]
  | fieldsCons tps q0 q1 v p vcs kvs rest hval hrest ihval ihrest =>
    intro o par
    rw [processChunks_append, keyTokenRun]
    rw [processChunks_append, ihval]
    rw [show handleValueEnd
        ((DeserializerState.objectProperty o (concatStrs (tps.map Prod.fst)) none
          par).setValueAndRootPath (canonicalize v) p) =
      ((.objectProperty (recordSet o (concatStrs (tps.map Prod.fst)) (canonicalize v))
        "" none par : DeserializerState), []) from rfl]
    rw [ihrest]
    simp [canonicalizeFields, buildFields_cons]

/-- The first chunk of an encoding of a value carries the path of the
encoding (it is the boundary chunk of the value). -/
theorem encodes_head_path (v : JsonValue) (p : JsonPath) (cs : List JsonChunkWithPath)
    (h : Encodes (.val v p cs)) : cs.head?.map (·.path) = some p := by
  cases h <;> rfl

/-- Concatenating encodings of root-level values and feeding them to the
materializer from a root state with any prior path yields one emission per
value, in order, each carrying the value's boundary path; the emitted value
is the one the code builds (`canonicalize`). -/
theorem deserialize_multi (docs : List (JsonValue × JsonPath × List JsonChunkWithPath)) :
    ∀ p0 : JsonPath,
      (∀ d ∈ docs, Encodes (.val d.1 d.2.1 d.2.2)) →
      ∃ pfin, processChunks (.root none p0) ((docs.map (fun d => d.2.2)).flatten) =
        (.root none pfin, docs.map (fun d => ⟨canonicalize d.1, d.2.1⟩)) := by
  induction docs with
  | nil => intro p0 _; exact ⟨p0, by simp [processChunks]⟩
  | cons d docs ih =>
    intro p0 hh
    have henc := hh d (List.mem_cons_self _ _)
    obtain ⟨v, p, cs⟩ := d
    rw [List.map_cons, List.flatten_cons, processChunks_append,
      encodes_main _ henc (.root none p0)]
    obtain ⟨pfin, hrec⟩ := ih p (fun d hd => hh d (List.mem_cons_of_mem _ hd))
    rw [show handleValueEnd
        ((DeserializerState.root none p0).setValueAndRootPath (canonicalize v) p) =
      ((.root none p : DeserializerState), [⟨canonicalize v, p⟩]) from rfl]
    exact ⟨pfin, by rw [hrec]; simp⟩

/-! ## The claims -/

/-- C1: For every well-formed chunk sequence containing `n` complete
root-level JSON values back-to-back (duplicate-keyed objects included — no
canonicity of the encoded values is assumed), the materializer emits exactly
`n` results, one per completed root-level value, in input order; the emitted
value is the one the code builds (`canonicalize`, last write wins on
duplicate keys) and each result's path equals the path recorded on the first
(boundary) chunk of that value. -/
theorem c1_one_result_per_root_value
    (docs : List (JsonValue × JsonPath × List JsonChunkWithPath))
    (h : ∀ d ∈ docs, Encodes (.val d.1 d.2.1 d.2.2)) :
    deserialize ((docs.map (fun d => d.2.2)).flatten) =
      docs.map (fun d => ⟨canonicalize d.1, d.2.1⟩) ∧
    (deserialize ((docs.map (fun d => d.2.2)).flatten)).length = docs.length ∧
    ∀ d ∈ docs, d.2.2.head?.map (·.path) = some d.2.1 := by
  have hmain : deserialize ((docs.map (fun d => d.2.2)).flatten) =
      docs.map (fun d => ⟨canonicalize d.1, d.2.1⟩) := by
    obtain ⟨pfin, hrun⟩ := deserialize_multi docs [] h
    rw [deserialize, show initialState = DeserializerState.root none [] from rfl, hrun]
  refine ⟨hmain, ?_, ?_⟩
  · rw [hmain, List.length_map]
  · intro d hd
    exact encodes_head_path d.1 d.2.1 d.2.2 (h d hd)

theorem c1_witness :
    deserialize [⟨.nullValue, []⟩, ⟨.booleanValue true, [.key "x"]⟩] =
      [⟨.null, []⟩, ⟨.bool true, [.key "x"]⟩] := by
  have h := c1_one_result_per_root_value
    [(.null, [], [⟨.nullValue, []⟩]),
      (.bool true, [.key "x"], [⟨.booleanValue true, [.key "x"]⟩])]
    (by
      intro d hd
      rcases List.mem_cons.mp hd with rfl | hd2
      · exact Encodes.nullv []
      · rcases List.mem_cons.mp hd2 with rfl | h3
        · exact Encodes.boolean true [.key "x"]
        · cases h3)
  exact h.1.trans (by decide)

/-- C2: Value-completion handling behaves exactly as specified in each state:
in `Root` the completed value (if any) is emitted and reset; in
`ObjectProperty` the value (if any) is stored under the accumulated key and
key and value are reset; in `ArrayItem` the value (if any) is appended and
reset. -/
theorem c2_handle_value_end_cases :
    ∀ (p : JsonPath) (v : JsonValue) (o : List (String × JsonValue)) (k : String)
      (par : DeserializerState) (a : List JsonValue),
      handleValueEnd (.root (some v) p) = (.root none p, [⟨v, p⟩]) ∧
      handleValueEnd (.root none p) = (.root none p, []) ∧
      handleValueEnd (.objectProperty o k (some v) par) =
        (.objectProperty (recordSet o k v) "" none par, []) ∧
      handleValueEnd (.objectProperty o k none par) = (.objectProperty o "" none par, []) ∧
      handleValueEnd (.arrayItem a (some v) par) = (.arrayItem (a ++ [v]) none par, []) ∧
      handleValueEnd (.arrayItem a none par) = (.arrayItem a none par, []) := by
  intros
  exact ⟨rfl, rfl, rfl, rfl, rfl, rfl⟩

/-- C4 counterexample: the materializer builds objects as plain JavaScript
objects, and ECMAScript enumerates array-index keys first in ascending
numeric order — so insertion order is NOT preserved. For the document
`{"x": null, "0": true}` the keys were inserted as `"x"` then `"0"`, but the
built mapping enumerates `["0", "x"]`, not the insertion order
`["x", "0"]`. -/
theorem c4_counterexample_integer_key_order :
    (deserialize [⟨.objectStart, []⟩,
      ⟨.stringStart .key, []⟩, ⟨.stringChunk .key "x", []⟩, ⟨.stringEnd .key, []⟩,
      ⟨.nullValue, []⟩,
      ⟨.stringStart .key, []⟩, ⟨.stringChunk .key "0", []⟩, ⟨.stringEnd .key, []⟩,
      ⟨.booleanValue true, []⟩,
      ⟨.objectEnd, []⟩] =
      [⟨.obj [("0", .bool true), ("x", .null)], []⟩]) ∧
    [("0", JsonValue.bool true), ("x", JsonValue.null)].map Prod.fst ≠ ["x", "0"] := by
  exact ⟨by decide, by decide⟩

/-- C4 (amended): When the materializer builds an object, keys are unique
and last write wins (a duplicated key appears exactly once, with the value of
its later occurrence), and the keys sit in JavaScript own-property
enumeration order: array-index keys first in ascending numeric order, then
the remaining keys in insertion order — in particular, when no key is an
array-index key, insertion order (of first occurrences) is preserved. -/
theorem c4_amended_key_order_last_write_wins
    (kvs : List (String × JsonValue)) (cs : List JsonChunkWithPath) (p q : JsonPath)
    (henc : Encodes (.fields kvs cs)) :
    deserialize (⟨.objectStart, p⟩ :: (cs ++ [⟨.objectEnd, q⟩])) =
      [⟨.obj (buildFields [] (canonicalizeFields kvs)), p⟩] ∧
    nodupKeys (buildFields [] (canonicalizeFields kvs)) = true ∧
    (∀ k, lookupKey (buildFields [] (canonicalizeFields kvs)) k =
      (lastWins kvs k).map canonicalize) ∧
    keysOrderOk ((buildFields [] (canonicalizeFields kvs)).map Prod.fst) = true ∧
    (((kvs.map Prod.fst).all (fun k2 => !isIntKey k2)) = true →
      (buildFields [] (canonicalizeFields kvs)).map Prod.fst =
        dedupFirst (kvs.map Prod.fst)) := by
  refine ⟨?_, ?_, ?_, ?_, ?_⟩
  · rw [deserialize, processChunks_cons,
      show transform initialState ⟨.objectStart, p⟩ =
        (.objectProperty [] "" none (initialState.setValueAndRootPath (.obj []) p), [])
        from rfl,
      processChunks_append, encodes_main _ henc]
    rw [processChunks_cons,
      show transform (.objectProperty (buildFields [] (canonicalizeFields kvs)) "" none
          (initialState.setValueAndRootPath (.obj []) p)) ⟨.objectEnd, q⟩ =
        handleValueEnd ((initialState.setValueAndRootPath (.obj []) p).setValue
          (some (.obj (buildFields [] (canonicalizeFields kvs))))) from rfl]
    simp [processChunks, initialState, DeserializerState.setValueAndRootPath,
      DeserializerState.setValue, handleValueEnd]
  · exact nodupKeys_buildFields (canonicalizeFields kvs) [] rfl
  · intro k
    rw [lookupKey_buildFields (canonicalizeFields kvs) [] k, lastWins_canonicalizeFields]
    cases lastWins kvs k <;> rfl
  · exact keysOrderOk_buildFields (canonicalizeFields kvs) [] rfl
  · intro hall
    have hk := keys_canonicalizeFields kvs
    have h2 := keys_buildFields_str (canonicalizeFields kvs) []
      (by rw [hk]; exact hall)
    rw [h2, hk]
    simp [dedupFirst]

theorem c4_amended_witness :
    deserialize [⟨.objectStart, []⟩,
      ⟨.stringStart .key, []⟩, ⟨.stringChunk .key "a", []⟩, ⟨.stringEnd .key, []⟩,
      ⟨.nullValue, []⟩,
      ⟨.stringStart .key, []⟩, ⟨.stringChunk .key "a", []⟩, ⟨.stringEnd .key, []⟩,
      ⟨.booleanValue true, []⟩,
      ⟨.stringStart .key, []⟩, ⟨.stringChunk .key "b", []⟩, ⟨.stringEnd .key, []⟩,
      ⟨.stringStart .value, []⟩, ⟨.stringChunk .value "x", []⟩, ⟨.stringEnd .value, []⟩,
      ⟨.objectEnd, []⟩] =
      [⟨.obj [("a", .bool true), ("b", .str "x")], []⟩] := by
  have h := c4_amended_key_order_last_write_wins _ _ [] []
    (Encodes.fieldsCons [("a", [])] [] [] _ _ _ _ _
      (Encodes.nullv [])
      (Encodes.fieldsCons [("a", [])] [] [] _ _ _ _ _
        (Encodes.boolean true [])
        (Encodes.fieldsCons [("b", [])] [] [] _ _ _ _ _
          (Encodes.strv [("x", [])] [] [])
          Encodes.fieldsNil)))
  exact h.1.trans (by decide)

/-- C5: the materializer never emits a partially-built value: each chunk
causes at most one emission, an emission happens only when the chunk
completes a root-level value (`completesRootValue`), and the emissions of any
input prefix are a prefix of the emissions of the whole input, so every value
emitted so far was completed within the consumed prefix. -/
theorem c5_no_partial_value_emitted :
    (∀ (s : DeserializerState) (c : JsonChunkWithPath),
      (transform s c).2.length ≤ 1 ∧
      ((transform s c).2 ≠ [] → completesRootValue s c.chunk = true)) ∧
    (∀ (s : DeserializerState) (pre suf : List JsonChunkWithPath),
      (processChunks s (pre ++ suf)).2 =
        (processChunks s pre).2 ++ (processChunks (processChunks s pre).1 suf).2) := by
  constructor
  · intro s c
    obtain ⟨ch, p⟩ := c
    cases ch with
    | objectStart =>
      cases s <;>
        simp [transform, completesRootValue, DeserializerState.setValueAndRootPath]
    | arrayStart =>
      cases s <;>
        simp [transform, completesRootValue, DeserializerState.setValueAndRootPath]
    | objectEnd =>
      rcases s with ⟨v0, p0⟩ | ⟨o, k, v0, par⟩ | ⟨a, v0, par⟩
      · simp [transform, completesRootValue]
      · rcases par with ⟨pv, pp⟩ | ⟨po, pk, pv, ppar⟩ | ⟨pa, pv, ppar⟩ <;>
          simp [transform, completesRootValue, handleValueEnd, DeserializerState.setValue]
      · simp [transform, completesRootValue]
    | arrayEnd =>
      rcases s with ⟨v0, p0⟩ | ⟨o, k, v0, par⟩ | ⟨a, v0, par⟩
      · simp [transform, completesRootValue]
      · simp [transform, completesRootValue]
      · rcases par with ⟨pv, pp⟩ | ⟨po, pk, pv, ppar⟩ | ⟨pa, pv, ppar⟩ <;>
          simp [transform, completesRootValue, handleValueEnd, DeserializerState.setValue]
    | stringStart role =>
      cases role <;> cases s <;>
        simp [transform, completesRootValue, DeserializerState.setValueAndRootPath]
    | stringChunk role t =>
      cases role <;> cases s <;>
        simp [transform, completesRootValue, DeserializerState.setValue,
          DeserializerState.getValue]
    | stringEnd role =>
      cases role with
      | key =>
        cases s <;> simp [transform, completesRootValue]
      | value =>
        rcases s with ⟨v0, p0⟩ | ⟨o, k, v0, par⟩ | ⟨a, v0, par⟩
        · cases v0 <;> simp [transform, completesRootValue, handleValueEnd]
        · simp [transform, completesRootValue, handleValueEnd]
        · simp [transform, completesRootValue, handleValueEnd]
    | numberValue v =>
      cases s <;>
        simp [transform, completesRootValue, handleValueEnd,
          DeserializerState.setValueAndRootPath]
    | booleanValue b =>
      cases s <;>
        simp [transform, completesRootValue, handleValueEnd,
          DeserializerState.setValueAndRootPath]
    | nullValue =>
      cases s <;>
        simp [transform, completesRootValue, handleValueEnd,
          DeserializerState.setValueAndRootPath]
  · intro s pre suf
    exact congrArg Prod.snd (processChunks_append s pre suf)

theorem c5_witness :
    completesRootValue initialState .nullValue = true :=
  (c5_no_partial_value_emitted.1 initialState ⟨.nullValue, []⟩).2 (by decide)

/-- C6 counterexample: a structurally violating chunk (an `ObjectEnd` or
`ArrayEnd` with no open container) is not a fatal failure — the materializer
leaves its state untouched, emits nothing, and a subsequent root-level value
is still materialized normally, so it does recover. -/
theorem c6_counterexample_violating_chunk_not_fatal :
    deserialize [⟨.objectEnd, []⟩, ⟨.arrayEnd, []⟩, ⟨.nullValue, []⟩] = [⟨.null, []⟩] ∧
    transform initialState ⟨.objectEnd, []⟩ = (initialState, []) ∧
    transform initialState ⟨.arrayEnd, []⟩ = (initialState, []) := by
  exact ⟨rfl, rfl, rfl⟩

/-- C6 (amended): a structurally violating chunk — an `ObjectEnd` when the
materializer is not in `ObjectProperty` state, or an `ArrayEnd` when it is
not in `ArrayItem` state — is silently ignored: the state is unchanged,
nothing is emitted, and processing continues normally (no error is raised and
no failure state is entered). -/
theorem c6_amended_violating_chunks_ignored :
    ∀ (s : DeserializerState) (p : JsonPath),
      (s.isObjectProperty = false → transform s ⟨.objectEnd, p⟩ = (s, [])) ∧
      (s.isArrayItem = false → transform s ⟨.arrayEnd, p⟩ = (s, [])) := by
  intro s p
  constructor
  · intro h
    cases s <;> simp_all [transform, DeserializerState.isObjectProperty]
  · intro h
    cases s <;> simp_all [transform, DeserializerState.isArrayItem]

theorem c6_witness :
    initialState.isObjectProperty = false ∧
      transform initialState ⟨.objectEnd, []⟩ = (initialState, []) :=
  ⟨by decide, (c6_amended_violating_chunks_ignored initialState []).1 (by decide)⟩

/-- C7: for a value string delivered as `StringStart`, any partition of its
content into one or more `StringChunk`s, then `StringEnd`, the materializer
accumulates exactly the concatenation of the chunk texts (so the result
depends only on the concatenation, not the partition), emits nothing before
the `StringEnd`, and performs exactly one value completion, at the
`StringEnd` chunk. -/
theorem c7_string_chunk_partition_invariant :
    ∀ (s : DeserializerState) (p q : JsonPath) (tps : List (String × JsonPath)),
      tps ≠ [] →
      processChunks s (⟨.stringStart .value, p⟩ ::
          tps.map (fun tp => ⟨.stringChunk .value tp.1, tp.2⟩)) =
        (s.setValueAndRootPath (.str (concatStrs (tps.map Prod.fst))) p, []) ∧
      processChunks s (⟨.stringStart .value, p⟩ ::
          (tps.map (fun tp => ⟨.stringChunk .value tp.1, tp.2⟩) ++
            [⟨.stringEnd .value, q⟩])) =
        handleValueEnd
          (s.setValueAndRootPath (.str (concatStrs (tps.map Prod.fst))) p) := by
  intro s p q tps _
  constructor
  · rw [processChunks_cons,
      show transform s ⟨.stringStart .value, p⟩ = (s.setValueAndRootPath (.str "") p, [])
        from rfl,
      stringRun tps _ "" (getValue_setValueAndRootPath s _ p)]
    simp [String.empty_append, setValue_setValueAndRootPath]
  · exact stringValueRun s p q tps

theorem c7_witness :
    deserialize [⟨.stringStart .value, []⟩, ⟨.stringChunk .value "ap", []⟩,
        ⟨.stringChunk .value "ple", []⟩, ⟨.stringEnd .value, []⟩] =
      [⟨.str "apple", []⟩] := by
  have h := (c7_string_chunk_partition_invariant initialState [] []
    [("ap", []), ("ple", [])] (by decide)).2
  exact (congrArg Prod.snd h).trans (by decide)

/-- C10: The `undefined` sentinel (`Option.none` here) distinguishes "no value
produced" from falsy completed values, so `false`, `0` and `""` are emitted at
root level, stored under their key as object properties, and appended as array
items; only the genuine absence of a value is skipped. -/
theorem c10_falsy_values_not_dropped :
    ∀ (p : JsonPath) (o : List (String × JsonValue)) (k : String)
      (par : DeserializerState) (a : List JsonValue),
      deserialize [⟨.booleanValue false, p⟩] = [⟨.bool false, p⟩] ∧
      deserialize [⟨.numberValue "0", p⟩] = [⟨.num "0", p⟩] ∧
      deserialize [⟨.stringStart .value, p⟩, ⟨.stringEnd .value, p⟩] = [⟨.str "", p⟩] ∧
      transform (.objectProperty o k none par) ⟨.booleanValue false, p⟩ =
        (.objectProperty (recordSet o k (.bool false)) "" none par, []) ∧
      transform (.objectProperty o k none par) ⟨.numberValue "0", p⟩ =
        (.objectProperty (recordSet o k (.num "0")) "" none par, []) ∧
      processChunks (.objectProperty o k none par)
          [⟨.stringStart .value, p⟩, ⟨.stringEnd .value, p⟩] =
        (.objectProperty (recordSet o k (.str "")) "" none par, []) ∧
      transform (.arrayItem a none par) ⟨.booleanValue false, p⟩ =
        (.arrayItem (a ++ [.bool false]) none par, []) ∧
      transform (.arrayItem a none par) ⟨.numberValue "0", p⟩ =
        (.arrayItem (a ++ [.num "0"]) none par, []) ∧
      processChunks (.arrayItem a none par)
          [⟨.stringStart .value, p⟩, ⟨.stringEnd .value, p⟩] =
        (.arrayItem (a ++ [.str ""]) none par, []) ∧
      handleValueEnd (.root none p) = (.root none p, []) ∧
      handleValueEnd (.objectProperty o k none par) = (.objectProperty o "" none par, []) ∧
      handleValueEnd (.arrayItem a none par) = (.arrayItem a none par, []) := by
  intros
  exact ⟨rfl, rfl, rfl, rfl, rfl, rfl, rfl, rfl, rfl, rfl, rfl, rfl⟩

/-! ## Fragmentation invariance of the tokenizer, and the pipeline claims -/

theorem parserFeed_append (a b : List Char) (st : ParserState) :
    parserFeed st (a ++ b) = parserFeed (parserFeed st a) b := by
  simp [parserFeed, List.foldl_append]

/-- Feeding fragments one at a time is feeding the concatenation of their
characters: the character-level scanner does not depend on where fragment
boundaries fall. -/
theorem parserFeedFrags_eq (fs : List String) :
    ∀ st : ParserState, parserFeedFrags st fs =
      parserFeed st ((fs.map String.data).flatten) := by
  induction fs with
  | nil => intro st; rfl
  | cons f fs ih =>
    intro st
    show parserFeedFrags (parserFeed st f.data) fs = _
    rw [ih (parserFeed st f.data), List.map_cons, List.flatten_cons, parserFeed_append]

theorem foldl_append_data (fs : List String) :
    ∀ x : String, (fs.foldl (· ++ ·) x).data = x.data ++ (fs.map String.data).flatten := by
  induction fs with
  | nil => intro x; simp
  | cons f fs ih =>
    intro x
    simp only [List.foldl_cons, ih (x ++ f), String.data_append, List.map_cons,
      List.flatten_cons, List.append_assoc]

theorem join_data (fs : List String) :
    (String.join fs).data = (fs.map String.data).flatten := by
  simpa [String.join] using foldl_append_data fs ""

/-- Fragmentation invariance: tokenizing a fragment sequence is tokenizing
the concatenated text (spec §4.1: a fragment boundary falling mid-token never
loses or duplicates characters; spec §8 fragmentation-invariance). -/
theorem tokenizeFragments_eq_join (fs : List String) :
    tokenizeFragments fs = tokenizeString (String.join fs) := by
  rw [tokenizeFragments, tokenizeString, parserFeedFrags_eq, join_data]

set_option maxRecDepth 100000 in
/-- C3: For the example document split into arbitrary fragments and the
pattern `[<wildcard>, "results"]`, the pipeline yields exactly two
sub-streams, with paths `["apples","results"]` and `["cherries","results"]`,
which materialize to `["apple1","apple2"]` and
`{"1":"cherry1","2":"cherry2"}` respectively. In this pure model a
sub-stream's descriptor holds its full chunk sequence, so its materialization
is a function of the descriptor alone — any order in which a consumer reads
the two sub-streams observes these same two results. -/
theorem c3_pipeline_example (frags : List String)
    (h : String.join frags = testDocument) :
    (pipeline frags resultsPattern).map (fun s => s.path) =
      [[.key "apples", .key "results"], [.key "cherries", .key "results"]] ∧
    (pipeline frags resultsPattern).map (fun s => deserialize s.chunks) =
      [[⟨.arr [.str "apple1", .str "apple2"], [.key "apples", .key "results"]⟩],
        [⟨.obj [("1", .str "cherry1"), ("2", .str "cherry2")],
          [.key "cherries", .key "results"]⟩]] := by
  have hx : tokenizeFragments frags = tokenizeString testDocument := by
    rw [tokenizeFragments_eq_join, h]
  constructor
  · simp only [pipeline, hx]
    decide
  · simp only [pipeline, hx]
    decide

set_option maxRecDepth 100000 in
theorem c3_witness :
    (pipeline testFragments resultsPattern).map (fun s => deserialize s.chunks) =
      [[⟨.arr [.str "apple1", .str "apple2"], [.key "apples", .key "results"]⟩],
        [⟨.obj [("1", .str "cherry1"), ("2", .str "cherry2")],
          [.key "cherries", .key "results"]⟩]] :=
  (c3_pipeline_example testFragments (by decide)).2

/-- C8: If the upstream source is aborted with an error after any chunk
prefix, the main descriptor sequence produces no further descriptors and
terminates with that error, and every one of the sub-streams emitted so far
(completed or still open) fails with the same error on its next read; the
set of emitted sub-streams is exactly the one a normal run over the same
prefix would have emitted. -/
theorem c8_abort_propagation (cs : List JsonChunkWithPath) (e : String) :
    (splitterRun cs (some e)).mainTerm = .errorTerm e ∧
    (splitterRun cs (some e)).subs.map (fun s => (s.path, s.chunks)) =
      (splitterRun cs none).subs.map (fun s => (s.path, s.chunks)) ∧
    ∀ sub ∈ (splitterRun cs (some e)).subs, sub.term = (splitterRun cs (some e)).mainTerm := by
  refine ⟨rfl, by simp [splitterRun], ?_⟩
  intro sub hm
  simp only [splitterRun, List.mem_map] at hm
  obtain ⟨s, _, rfl⟩ := hm
  rfl

theorem c8_witness :
    (⟨[], [⟨.nullValue, []⟩], .errorTerm "test"⟩ : SubStreamOutcome).term =
      (splitterRun [⟨.nullValue, []⟩] (some "test")).mainTerm :=
  (c8_abort_propagation [⟨.nullValue, []⟩] "test").2.2
    ⟨[], [⟨.nullValue, []⟩], .errorTerm "test"⟩ (by decide)

end JsonStreamEs
